import Mathlib

/-!
Verification development for `spelling_roots_game.py` (offline-first etymology
lookup tool).  The Python source is shallowly embedded: pure helper functions
become Lean functions on `String`/`List Char`, the Streamlit button handler
("Explain origins") becomes the pure function `resolve` parameterised by the
dataset and by oracles standing for the network calls, and the CSV library
calls are modelled by an explicit RFC-4180-style state machine matching
Python's `csv` module on the inputs that matter here.
-/

namespace SpellingRoots

/-! ## Basic string helpers

Python string operations are modelled on `List Char` via `String.toList` /
`String.mk` so that everything reduces in the kernel. -/

/-- `str.lower()` restricted to ASCII, matching `re.IGNORECASE` behaviour on
the ASCII-only lexicon. -/
def lowerChars (l : List Char) : List Char := l.map Char.toLower

/-- `str.lower()` on strings. -/
def lowerStr (s : String) : String := String.mk (lowerChars s.toList)

/-- The whitespace characters removed by Python's `str.strip()` (ASCII part). -/
def isPySpace (c : Char) : Bool :=
  c == ' ' || c == '\t' || c == '\n' || c == '\r' || c == '\x0b' || c == '\x0c'

/-- `str.strip()` on char lists: drop whitespace from both ends. -/
def stripChars (l : List Char) : List Char :=
  ((l.dropWhile isPySpace).reverse.dropWhile isPySpace).reverse

/-- `str.strip()`. -/
def pyStrip (s : String) : String := String.mk (stripChars s.toList)

/-- `str.capitalize()`: first char uppercased, the rest lowercased. -/
def capitalizeStr (s : String) : String :=
  match s.toList with
  | [] => ""
  | c :: r => String.mk (Char.toUpper c :: lowerChars r)

theorem mk_toList (s : String) : String.mk s.toList = s := rfl

/-! ## Data model -/

/-- A row of the local CSV database (`word,etymology,notes`). -/
structure Entry where
  word : String
  etymology : String
  notes : String
deriving DecidableEq, Repr

/-- One extracted "Etymology" section (the dict `{"heading": .., "text": ..}`
built by `extract_etymology_sections`). -/
structure EtymologySection where
  heading : String
  text : String
deriving DecidableEq, Repr

/-- A sibling-level node of the parsed Wiktionary HTML document, as seen by
`extract_etymology_sections`: the code only inspects the tag name
(`h2`..`h4` headings, `p`/`ul`/`ol`/`dl` text blocks) and `get_text` of each
sibling; every other node kind is `other`. -/
inductive Block where
  | heading (level : Nat) (text : String)
  | para (text : String)
  | ulist (text : String)
  | olist (text : String)
  | dlist (text : String)
  | other
deriving DecidableEq, Repr

/-- The outcome of one "Explain origins" run (§3 `ResolutionResult` of the
spec, read off the branches of the button handler). -/
inductive ResolutionResult where
  | invalidInput
  | foundLocal (e : Entry)
  | heuristicOnly (matchSet : List String)
  | remoteNotFound (matchSet : List String)
  | remoteFound (matchSet : List String) (title : Option String)
      (sections : List EtymologySection)
deriving DecidableEq, Repr

/-! ## Root lexicon and matcher

`COMMON_ROOTS` keys in source (dict insertion) order; the explanatory values
play no role in any claim, only the key set and its order do.
`ROOT_REGEX = re.compile("|".join(sorted(keys, key=len, reverse=True)), re.IGNORECASE)`
is an alternation of literal patterns tried longest-first at each position;
`finditer` yields the non-overlapping matches scanning left to right. -/

def rootPatterns : List String :=
  ["phono", "photo", "tele", "geo", "auto", "chrono", "micro", "macro",
   "graph", "bio", "psycho", "hydro", "logos",
   "port", "scrib", "script", "spect", "vid", "vis", "dict", "ject", "rupt",
   "cred", "terra", "aqua", "bene", "mal", "mater", "pater", "urb", "vac",
   "voc", "ann", "mort",
   "pre", "re", "un", "mis", "anti", "sub", "inter", "trans", "tri",
   "ful", "less", "ology", "ist"]

/-- The ordering used by `sorted(keys, key=len, reverse=True)`. -/
def byLenDesc (a b : String) : Prop := b.length ≤ a.length

instance : DecidableRel byLenDesc := fun a b => Nat.decLe b.length a.length

instance : IsTotal String byLenDesc :=
  ⟨fun a b => (Nat.le_total b.length a.length).elim Or.inl Or.inr⟩

instance : IsTrans String byLenDesc :=
  ⟨fun _ _ _ h1 h2 => Nat.le_trans h2 h1⟩

/-- `sorted(pats, key=len, reverse=True)` (stable, like Python's sort). -/
def sortByLenDesc (pats : List String) : List String :=
  List.insertionSort byLenDesc pats

/-- Case-insensitive literal match of pattern `p` at the start of `cs`. -/
def prefixCI (p : String) (cs : List Char) : Bool :=
  (lowerChars p.toList).isPrefixOf (lowerChars cs)

/-- The alternative the regex engine picks at the current position: the first
pattern (in the given order) matching here. -/
def firstMatch (pats : List String) (cs : List Char) : Option String :=
  pats.find? (fun p => prefixCI p cs)

/-- `ROOT_REGEX.finditer`: scan left to right; on a match of length `L`
continue after its end (matches never overlap); otherwise advance one char.
Each hit is recorded as `m.group(0).lower()`, which for a case-insensitive
literal match equals the lowercased pattern.  The `fuel` argument only makes
the recursion structural: every step consumes at least one character, so
`fuel = cs.length` (as supplied by `scanAux`) is never exhausted. -/
def scanFuel (pats : List String) : Nat → List Char → List String
  | 0, _ => []
  | _, [] => []
  | fuel + 1, c :: rest =>
    match firstMatch pats (c :: rest) with
    | none => scanFuel pats fuel rest
    | some p => lowerStr p :: scanFuel pats fuel (rest.drop (p.length - 1))

/-- The full left-to-right non-overlapping scan of `cs`. -/
def scanAux (pats : List String) (cs : List Char) : List String :=
  scanFuel pats cs.length cs

/-- `sorted(set(m.group(0).lower() for m in regex.finditer(w)))` with the
regex built from `pats` sorted longest-first. -/
def findRootsWith (pats : List String) (w : String) : List String :=
  List.insertionSort (· ≤ ·) ((scanAux (sortByLenDesc pats) w.toList).dedup)

/-- The matcher with the actual `COMMON_ROOTS` lexicon (`ROOT_REGEX`). -/
def findRoots (w : String) : List String := findRootsWith rootPatterns w

/-! ## Word normalisation and local lookup -/

/-- `clean_word`: `re.sub(r"[^A-Za-z\-\']", "", w or "").strip()`. -/
def clean_word (w : String) : String :=
  pyStrip (String.mk (w.toList.filter (fun c => c.isAlpha || c == '-' || c == '\'')))

/-- `local_map = {r["word"].lower(): r for r in local_rows}` followed by
`.get(key)`: the dict comprehension lets later rows overwrite earlier ones. -/
def localMap (rows : List Entry) (key : String) : Option Entry :=
  rows.foldl (fun acc r => if lowerStr r.word == key then some r else acc) none

/-! ## Etymology section extraction

Models `extract_etymology_sections`.  The heading test is
`re.search(r"\bEtymology\b", heading_text, re.IGNORECASE)`. -/

/-- A regex word character (`\w`), ASCII part. -/
def isWordChar (c : Char) : Bool := c.isAlphanum || c == '_'

def etymChars : List Char := ['e', 't', 'y', 'm', 'o', 'l', 'o', 'g', 'y']

/-- `\bEtymology\b` matches at the current position of `cs` (whose previous
character, if any, is `prev`). -/
def wbHere (prev : Option Char) (cs : List Char) : Bool :=
  (match prev with
   | none => true
   | some c => !isWordChar c) &&
  etymChars.isPrefixOf (lowerChars cs) &&
  (match cs.drop etymChars.length with
   | [] => true
   | c :: _ => !isWordChar c)

def wbSearch : Option Char → List Char → Bool
  | prev, [] => wbHere prev []
  | prev, c :: rest => wbHere prev (c :: rest) || wbSearch (some c) rest

/-- `re.search(r"\bEtymology\b", s, re.IGNORECASE) is not None`. -/
def containsEtymologyWB (s : String) : Bool := wbSearch none s.toList

/-- The sibling loop's break test: `name in ["h2","h3","h4"]` and
`int(name[1]) <= current_level`. -/
def stopsAt (lvl : Nat) : Block → Bool
  | .heading l _ => (l == 2 || l == 3 || l == 4) && l ≤ lvl
  | _ => false

/-- The sibling loop's collect test: `name in ["p","ul","ol","dl"]`, yielding
`sib.get_text(" ", strip=True)`. -/
def blockText : Block → Option String
  | .para t => some t
  | .ulist t => some t
  | .olist t => some t
  | .dlist t => some t
  | _ => none

/-- The `for sib in h.next_siblings` loop of `extract_etymology_sections`. -/
def collectTexts (lvl : Nat) : List Block → List String
  | [] => []
  | b :: rest =>
    if stopsAt lvl b then []
    else
      match blockText b with
      | some t => t :: collectTexts lvl rest
      | none => collectTexts lvl rest

/-- `extract_etymology_sections`: for every `h2`/`h3`/`h4` heading whose text
matches `\bEtymology\b` (case-insensitively), collect following sibling
`p`/`ul`/`ol`/`dl` texts up to the next `h2`..`h4` heading of level at most
the trigger's; emit a section only when at least one text was collected. -/
def extract_etymology_sections : List Block → List EtymologySection
  | [] => []
  | .heading l t :: rest =>
    if (l == 2 || l == 3 || l == 4) && containsEtymologyWB t then
      let texts := collectTexts l rest
      if texts.isEmpty then extract_etymology_sections rest
      else ⟨t, String.intercalate "\n\n" texts⟩ :: extract_etymology_sections rest
    else extract_etymology_sections rest
  | _ :: rest => extract_etymology_sections rest

/-- ### Spec-style reformulation (for the refinement statement of C5).
Written after the spec's words: one candidate section per document position
holding a level-2..4 heading whose text matches, whose body is the
blank-line-joined text of the paragraph/list/definition-list blocks among the
following siblings, taken up to the first stopping heading. -/
def sectionAt (doc : List Block) (i : Nat) : Option EtymologySection :=
  match doc.get? i with
  | some (.heading l t) =>
    if (l == 2 || l == 3 || l == 4) && containsEtymologyWB t then
      let texts :=
        ((doc.drop (i + 1)).takeWhile (fun b => !stopsAt l b)).filterMap blockText
      if texts.isEmpty then none
      else some ⟨t, String.intercalate "\n\n" texts⟩
    else none
  | _ => none

/-- All sections of the document, in document order (spec-style). -/
def specSections (doc : List Block) : List EtymologySection :=
  (List.range doc.length).filterMap (sectionAt doc)

/-- Level-5/6 headings (present in HTML, invisible to the extractor). -/
def isLevel56 : Block → Bool
  | .heading l _ => l == 5 || l == 6
  | _ => false

/-! ## Remote lookup

The two HTTP endpoints are oracles.  `Except Unit α` models a call that may
raise (`error`) or return a decoded payload; the `try/except` wrappers in the
source catch every exception and return `None`. -/

/-- The remote service: `parse` stands for the `action=parse` request
(payload: `(data.get("parse") or {}).get("text")`), `search` for the
`action=opensearch` request (payload: the title list `data[1]`, with a
malformed response decoded as `[]`). -/
structure Oracle where
  parse : String → Except Unit (Option String)
  search : String → Except Unit (List String)

/-- Python truthiness of an optional string (`if html:` / `if title:`). -/
def isTruthy : Option String → Bool
  | none => false
  | some s => !(s == "")

/-- `wiktionary_parse`: any exception yields `None`. -/
def wiktionary_parse (o : Oracle) (title : String) : Option String :=
  match o.parse title with
  | .error _ => none
  | .ok v => v

/-- `wiktionary_opensearch`: prefer a case-insensitive exact title, else the
first result, else `None`; any exception yields `None`. -/
def wiktionary_opensearch (o : Oracle) (word : String) : Option String :=
  match o.search word with
  | .error _ => none
  | .ok titles =>
    match titles.find? (fun t => lowerStr t == lowerStr word) with
    | some t => some t
    | none => titles.head?

/-- The `for cand in [word.lower(), word.capitalize(), word]` loop of
`fetch_etymology_html`. -/
def fetch_candidates (o : Oracle) : List String → Option (String × String)
  | [] => none
  | c :: rest =>
    match wiktionary_parse o c with
    | some html => if html == "" then fetch_candidates o rest else some (html, c)
    | none => fetch_candidates o rest

/-- `fetch_etymology_html`: try the three title candidates, then one search
followed by one more fetch; `(None, None)` when everything fails. -/
def fetch_etymology_html (o : Oracle) (word : String) :
    Option String × Option String :=
  match fetch_candidates o [lowerStr word, capitalizeStr word, word] with
  | some (html, cand) => (some html, some cand)
  | none =>
    match wiktionary_opensearch o word with
    | some title =>
      if title == "" then (none, none)
      else
        match wiktionary_parse o title with
        | some html => if html == "" then (none, none) else (some html, some title)
        | none => (none, none)
    | none => (none, none)

/-! ## The resolution pipeline ("Explain origins" button handler) -/

/-- The handler's fallback branch (word not found locally, or found with an
empty etymology): offline root hints, then the optional online lookup.
`soup` stands for `BeautifulSoup(html, "html.parser")`, i.e. the capability
turning the fetched HTML text into sibling blocks. -/
def resolve_fallback (o : Oracle) (soup : String → List Block) (w : String)
    (useOnline : Bool) : ResolutionResult :=
  let ms := findRoots w
  if useOnline then
    match fetch_etymology_html o w with
    | (some html, title) =>
      if html == "" then .remoteNotFound ms
      else .remoteFound ms title (extract_etymology_sections (soup html))
    | (none, _) => .remoteNotFound ms
  else .heuristicOnly ms

/-- The "Explain origins" handler: normalise, reject empty input, look up the
local dataset (case-insensitively), and fall back to heuristics / the remote
service. -/
def resolve (rows : List Entry) (o : Oracle) (soup : String → List Block)
    (word : String) (useOnline : Bool) : ResolutionResult :=
  let w := clean_word word
  if w == "" then .invalidInput
  else
    match localMap rows (lowerStr w) with
    | some row =>
      if row.etymology == "" then resolve_fallback o soup w useOnline
      else .foundLocal row
    | none => resolve_fallback o soup w useOnline

/-- "Word is not usable from the local dataset": absent, or present only with
an empty etymology. -/
def notFoundLocally (rows : List Entry) (key : String) : Prop :=
  ∀ r, localMap rows key = some r → r.etymology = ""

/-- A remote service for which every call raises. -/
def failingOracle : Oracle := ⟨fun _ => .error (), fun _ => .error ()⟩

/-- A trivial HTML-parsing capability (used only to instantiate statements
whose conclusion cannot depend on it). -/
def noSoup : String → List Block := fun _ => []

/-! ## CSV model

`save_db_to_path` uses `csv.DictWriter` (QUOTE_MINIMAL, `"` quotechar doubled,
`\r\n` line terminator); `load_db_from_path` uses `csv.DictReader`.  Both are
modelled at the level of the file's text: the writer below produces exactly
the bytes `DictWriter` produces, and `csvParse` is the standard CSV state
machine (matching Python's `_csv` reader states on such input: quoted fields
entered only on a quote at field start, doubled quotes inside quotes, a quote
inside an unquoted field taken literally, `\r\n`/`\n`/`\r` ending a record,
a blank line giving the empty record). -/

/-- QUOTE_MINIMAL: quote a field iff it contains the delimiter, the quote
char, or a line-terminator character. -/
def needsQuoteChar (c : Char) : Bool :=
  c == ',' || c == '"' || c == '\r' || c == '\n'

/-- Double every quote character (the writer's escaping inside quotes). -/
def escapeChars : List Char → List Char
  | [] => []
  | c :: rest =>
    if c = '"' then '"' :: '"' :: escapeChars rest else c :: escapeChars rest

/-- One written field. -/
def writeFieldChars (s : List Char) : List Char :=
  if s.any needsQuoteChar then '"' :: (escapeChars s ++ ['"']) else s

/-- One written row in the fixed field order `word,etymology,notes`, with the
`\r\n` terminator. -/
def writeRowChars (e : Entry) : List Char :=
  writeFieldChars e.word.toList ++
    ',' :: (writeFieldChars e.etymology.toList ++
      ',' :: (writeFieldChars e.notes.toList ++ ['\r', '\n']))

/-- `save_db_to_path`: the header row (itself written by `writeheader` as an
ordinary row) followed by one row per entry. -/
def saveChars (rows : List Entry) : List Char :=
  writeRowChars ⟨"word", "etymology", "notes"⟩ ++ (rows.map writeRowChars).flatten

/-- `save_db_to_path`, as the text written to the file. -/
def save_db_to_text (rows : List Entry) : String := String.mk (saveChars rows)

/-- Reader states of the CSV state machine. -/
inductive CsvMode where
  | normal     -- at field start / inside an unquoted field
  | quoted     -- inside a quoted field
  | afterQuote -- just saw a quote inside a quoted field
  | afterCR    -- just ended a record at a carriage return
deriving DecidableEq, Repr

/-- The CSV reader.  `acc` is the current field (reversed), `fs` the finished
fields of the current record (reversed), `started` whether the current record
has consumed anything (a line with no characters at all yields the empty
record `[]`, which `DictReader` skips).  A `\r` ends the record and switches
to `afterCR`, which swallows the `\n` of a `\r\n` pair; every step consumes
exactly one character. -/
def csvParse (mode : CsvMode) (acc : List Char) (fs : List (List Char))
    (started : Bool) : List Char → List (List (List Char))
  | [] =>
    match mode with
    | .normal => if started then [fs.reverse ++ [acc.reverse]] else []
    | .afterCR => []
    | _ => [fs.reverse ++ [acc.reverse]]
  | c :: rest =>
    match mode with
    | .normal =>
      if c = ',' then csvParse .normal [] (acc.reverse :: fs) true rest
      else if c = '\r' then
        (if started then fs.reverse ++ [acc.reverse] else []) ::
          csvParse .afterCR [] [] false rest
      else if c = '\n' then
        (if started then fs.reverse ++ [acc.reverse] else []) ::
          csvParse .normal [] [] false rest
      else if c = '"' then
        if acc.isEmpty then csvParse .quoted acc fs true rest
        else csvParse .normal ('"' :: acc) fs true rest
      else csvParse .normal (c :: acc) fs true rest
    | .quoted =>
      if c = '"' then csvParse .afterQuote acc fs started rest
      else csvParse .quoted (c :: acc) fs started rest
    | .afterQuote =>
      if c = '"' then csvParse .quoted ('"' :: acc) fs started rest
      else if c = ',' then csvParse .normal [] (acc.reverse :: fs) true rest
      else if c = '\r' then
        (fs.reverse ++ [acc.reverse]) :: csvParse .afterCR [] [] false rest
      else if c = '\n' then
        (fs.reverse ++ [acc.reverse]) :: csvParse .normal [] [] false rest
      else csvParse .normal (c :: acc) fs true rest
    | .afterCR =>
      -- Same as `normal` on a fresh record, except a `\n` here completes the
      -- preceding `\r\n` terminator.
      if c = '\n' then csvParse .normal [] [] false rest
      else if c = ',' then csvParse .normal [] [[]] true rest
      else if c = '\r' then [] :: csvParse .afterCR [] [] false rest
      else if c = '"' then csvParse .quoted [] [] true rest
      else csvParse .normal [c] [] true rest

/-- All records of a CSV text, as strings. -/
def csvRecords (s : String) : List (List String) :=
  (csvParse .normal [] [] false s.toList).map (fun r => r.map String.mk)

/-- `dict(zip(fieldnames, row))` with `restval=None` for short rows, then
`d.get(key)`: `none` = the key is not a field name at all (`get` returns the
default), `some none` = the field exists but the row was short (value `None`),
`some (some v)` = the field's value. -/
def rowGet (header row : List String) (key : String) : Option (Option String) :=
  let vals := row.map some ++ List.replicate (header.length - row.length) none
  ((header.zip vals).reverse.find? (fun p => p.1 == key)).map (fun p => p.2)

/-- One `DictReader` row of the loader's loop.  `none`: skipped (`word`
missing or falsy).  `some (.error ())`: the row is kept but a short row left
`etymology`/`notes` as `None` and `.strip()` raises (the loader only catches
`FileNotFoundError`).  `some (.ok e)`: the stripped entry. -/
def rowToEntry (header row : List String) : Option (Except Unit Entry) :=
  match (rowGet header row "word").join with
  | none => none
  | some w =>
    if w = "" then none
    else
      match (rowGet header row "word").getD (some ""),
            (rowGet header row "etymology").getD (some ""),
            (rowGet header row "notes").getD (some "") with
      | some w', some ety, some nts =>
        some (.ok ⟨pyStrip w', pyStrip ety, pyStrip nts⟩)
      | _, _, _ => some (.error ())

/-- The loader's row loop, propagating a raised exception. -/
def processRows (header : List String) : List (List String) → Except Unit (List Entry)
  | [] => .ok []
  | r :: rs =>
    match rowToEntry header r with
    | none => processRows header rs
    | some (.error _) => .error ()
    | some (.ok e) =>
      match processRows header rs with
      | .ok es => .ok (e :: es)
      | .error u => .error u

/-- `load_db_from_path`, at the level of the file's content: `none` stands
for a missing file (`FileNotFoundError` is caught, yielding `[]`); otherwise
the first record is the header and empty records are skipped by
`DictReader`. -/
def load_db_from_text : Option String → Except Unit (List Entry)
  | none => .ok []
  | some s =>
    match csvRecords s with
    | [] => .ok []
    | header :: rows => processRows header (rows.filter (fun r => !r.isEmpty))

/-! ## Lemmas about the root matcher -/

theorem find?_props {p : String → Bool} {l : List String} {r : String}
    (h : l.find? p = some r) : r ∈ l ∧ p r = true :=
  ⟨List.mem_of_find?_eq_some h, List.find?_some h⟩

theorem prefixCI_isPrefix {p : String} {cs : List Char} (h : prefixCI p cs = true) :
    lowerChars p.toList <+: lowerChars cs := by
  rw [prefixCI] at h
  exact List.isPrefixOf_iff_prefix.mp h

/-- Everything the scan reports is the lowercasing of a pattern occurring
case-insensitively inside the scanned text. -/
theorem scanFuel_sound (pats : List String) :
    ∀ fuel cs x, x ∈ scanFuel pats fuel cs →
      ∃ p ∈ pats, x = lowerStr p ∧ lowerChars p.toList <:+: lowerChars cs := by
  intro fuel
  induction fuel with
  | zero => intro cs x hx; simp [scanFuel] at hx
  | succ n ih =>
    intro cs x hx
    cases cs with
    | nil => simp [scanFuel] at hx
    | cons c rest =>
      rw [scanFuel] at hx
      cases hfm : firstMatch pats (c :: rest) with
      | none =>
        rw [hfm] at hx
        obtain ⟨p, hp, hxp, hinf⟩ := ih rest x hx
        refine ⟨p, hp, hxp, hinf.trans ?_⟩
        exact (List.suffix_cons (Char.toLower c) (lowerChars rest)).isInfix
      | some p =>
        rw [hfm] at hx
        obtain ⟨hpmem, hpci⟩ := find?_props hfm
        rcases List.mem_cons.mp hx with hx | hx
        · exact ⟨p, hpmem, hx, (prefixCI_isPrefix hpci).isInfix⟩
        · obtain ⟨q, hq, hxq, hinf⟩ := ih _ x hx
          refine ⟨q, hq, hxq, hinf.trans ?_⟩
          have h1 : lowerChars (rest.drop (p.length - 1)) <:+ lowerChars rest := by
            simpa [lowerChars, List.map_drop] using
              (List.drop_suffix (p.length - 1) (rest.map Char.toLower))
          exact (h1.trans (List.suffix_cons (Char.toLower c) (lowerChars rest))).isInfix

/-- On a list sorted by descending length, `find?` returns a hit at least as
long as any element satisfying the predicate. -/
theorem find?_sorted_len (f : String → Bool) :
    ∀ l : List String, List.Sorted byLenDesc l → ∀ q ∈ l, f q = true →
      ∃ r, l.find? f = some r ∧ q.length ≤ r.length := by
  intro l
  induction l with
  | nil => intro _ q hq; exact absurd hq (List.not_mem_nil q)
  | cons a l ih =>
    intro hs q hq hfq
    by_cases hfa : f a = true
    · refine ⟨a, List.find?_cons_of_pos _ hfa, ?_⟩
      rcases List.mem_cons.mp hq with rfl | hq'
      · exact Nat.le_refl _
      · exact (List.sorted_cons.mp hs).1 q hq'
    · have hq' : q ∈ l := by
        rcases List.mem_cons.mp hq with rfl | hq'
        · exact absurd hfq hfa
        · exact hq'
      obtain ⟨r, hr, hlen⟩ := ih (List.sorted_cons.mp hs).2 q hq' hfq
      exact ⟨r, by rw [List.find?_cons_of_neg _ (by simpa using hfa)]; exact hr, hlen⟩

/-! ## Lemmas about the local lookup -/

theorem localMap_foldl_const {key : String} :
    ∀ (rows : List Entry) (acc : Option Entry),
      (∀ r ∈ rows, lowerStr r.word ≠ key) →
      rows.foldl (fun acc r => if lowerStr r.word == key then some r else acc) acc
        = acc := by
  intro rows
  induction rows with
  | nil => intro acc _; rfl
  | cons r rs ih =>
    intro acc h
    rw [List.foldl_cons]
    have hb : (lowerStr r.word == key) = false := by
      simpa using h r (List.mem_cons_self r rs)
    rw [hb, if_neg (by simp)]
    exact ih acc (fun r' hr' => h r' (List.mem_cons_of_mem r hr'))

theorem localMap_last {key : String} :
    ∀ (rows : List Entry) (e : Entry) (acc : Option Entry),
      e ∈ rows → lowerStr e.word = key →
      (∀ r ∈ rows, lowerStr r.word = key → r = e) →
      rows.foldl (fun acc r => if lowerStr r.word == key then some r else acc) acc
        = some e := by
  intro rows
  induction rows with
  | nil => intro e acc he; exact absurd he (List.not_mem_nil e)
  | cons r rs ih =>
    intro e acc he hkey huni
    rw [List.foldl_cons]
    by_cases hmem : e ∈ rs
    · exact ih e _ hmem hkey (fun r' hr' => huni r' (List.mem_cons_of_mem r hr'))
    · have her : e = r := by
        rcases List.mem_cons.mp he with h | h
        · exact h
        · exact absurd h hmem
      subst her
      have hb : (lowerStr e.word == key) = true := by simpa using hkey
      rw [hb, if_pos rfl]
      refine localMap_foldl_const rs (some e) (fun r' hr' hk => ?_)
      exact hmem ((huni r' (List.mem_cons_of_mem e hr') hk) ▸ hr')

/-- Last-one-wins characterisation of the dict comprehension. -/
theorem localMap_eq_some {rows : List Entry} {e : Entry} {key : String}
    (hmem : e ∈ rows) (hkey : lowerStr e.word = key)
    (huni : ∀ r ∈ rows, lowerStr r.word = key → r = e) :
    localMap rows key = some e :=
  localMap_last rows e none hmem hkey huni

theorem localMap_append {pre post : List Entry} {e : Entry} {key : String}
    (hkey : lowerStr e.word = key)
    (hpost : ∀ r ∈ post, lowerStr r.word ≠ key) :
    localMap (pre ++ e :: post) key = some e := by
  rw [localMap, List.foldl_append, List.foldl_cons]
  have hb : (lowerStr e.word == key) = true := by simpa using hkey
  rw [hb, if_pos rfl]
  exact localMap_foldl_const post (some e) hpost

/-! ## Lemmas about the pipeline -/

/-- With the online toggle off, the handler's result is fully determined by
the dataset and the cleaned word: no oracle is consulted. -/
theorem resolve_offline_eq (rows : List Entry) (o : Oracle)
    (soup : String → List Block) (word : String) :
    resolve rows o soup word false =
      (if clean_word word == "" then .invalidInput
       else
         match localMap rows (lowerStr (clean_word word)) with
         | some row =>
           if row.etymology == "" then .heuristicOnly (findRoots (clean_word word))
           else .foundLocal row
         | none => .heuristicOnly (findRoots (clean_word word))) := rfl

theorem isTruthy_false_cases {x : Option String} (h : isTruthy x = false) :
    x = none ∨ x = some "" := by
  cases x with
  | none => exact Or.inl rfl
  | some s =>
    refine Or.inr ?_
    have : (s == "") = true := by simpa [isTruthy] using h
    simpa using this

theorem fetch_candidates_none {o : Oracle}
    (hfail : ∀ t, isTruthy (wiktionary_parse o t) = false) :
    ∀ l, fetch_candidates o l = none := by
  intro l
  induction l with
  | nil => rfl
  | cons c rest ih =>
    rw [fetch_candidates]
    rcases isTruthy_false_cases (hfail c) with h | h <;> rw [h]
    · exact ih
    · simpa using ih

/-- Every call failing (or yielding a falsy document) makes the fetch return
the absent pair. -/
theorem fetch_none {o : Oracle}
    (hfail : ∀ t, isTruthy (wiktionary_parse o t) = false) (w : String) :
    fetch_etymology_html o w = (none, none) := by
  rw [fetch_etymology_html, fetch_candidates_none hfail]
  cases hos : wiktionary_opensearch o w with
  | none => rfl
  | some title =>
    by_cases ht : title = ""
    · simp [ht]
    · have ht' : (title == "") = false := by simpa using ht
      rcases isTruthy_false_cases (hfail title) with h | h <;> simp [ht', h]

/-! ## Lemmas about section extraction -/

/-- The sibling loop collects exactly the text blocks before the first
stopping heading. -/
theorem collectTexts_eq (lvl : Nat) :
    ∀ bs : List Block, collectTexts lvl bs =
      (bs.takeWhile (fun b => !stopsAt lvl b)).filterMap blockText := by
  intro bs
  induction bs with
  | nil => rfl
  | cons b rest ih =>
    cases hs : stopsAt lvl b
    · cases hbt : blockText b <;>
        simp [collectTexts, List.takeWhile_cons, hs, hbt, ih]
    · simp [collectTexts, List.takeWhile_cons, hs]

theorem sectionAt_cons_succ (b : Block) (doc : List Block) (i : Nat) :
    sectionAt (b :: doc) (i + 1) = sectionAt doc i := rfl

theorem specSections_cons (b : Block) (doc : List Block) :
    specSections (b :: doc) =
      (match sectionAt (b :: doc) 0 with
       | none => specSections doc
       | some s => s :: specSections doc) := by
  rw [specSections, List.length_cons, List.range_succ_eq_map, List.filterMap_cons,
      List.filterMap_map]
  have hcomp : sectionAt (b :: doc) ∘ Nat.succ = sectionAt doc :=
    funext (sectionAt_cons_succ b doc)
  rw [hcomp]
  cases sectionAt (b :: doc) 0 <;> rfl

/-- The recursive extractor agrees with the position-by-position (spec-style)
description of the sections. -/
theorem extract_eq_specSections :
    ∀ doc, extract_etymology_sections doc = specSections doc := by
  intro doc
  induction doc with
  | nil => rfl
  | cons b doc ih =>
    rw [specSections_cons]
    cases b with
    | heading l t =>
      by_cases htrig : ((l == 2 || l == 3 || l == 4) && containsEtymologyWB t) = true
      · have hsec : sectionAt (Block.heading l t :: doc) 0 =
            (if (collectTexts l doc).isEmpty then none
             else some ⟨t, String.intercalate "\n\n" (collectTexts l doc)⟩) := by
          rw [sectionAt]
          simp only [List.get?_cons_zero]
          rw [if_pos htrig, ← collectTexts_eq]
          rfl
        by_cases hemp : (collectTexts l doc).isEmpty = true
        · rw [hsec, if_pos hemp]
          simp [extract_etymology_sections, htrig, hemp, ih]
        · rw [hsec, if_neg hemp]
          simp [extract_etymology_sections, htrig, hemp, ih]
      · have hsec : sectionAt (Block.heading l t :: doc) 0 = none := by
          rw [sectionAt]
          simp only [List.get?_cons_zero]
          rw [if_neg htrig]
        rw [hsec]
        simp [extract_etymology_sections, htrig, ih]
    | para t => exact ih
    | ulist t => exact ih
    | olist t => exact ih
    | dlist t => exact ih
    | other => exact ih

/-- Level-5/6 headings are invisible to the sibling loop: they neither stop
collection nor contribute text. -/
theorem collectTexts_filter56 (lvl : Nat) :
    ∀ bs, collectTexts lvl (bs.filter (fun b => !isLevel56 b)) = collectTexts lvl bs := by
  intro bs
  induction bs with
  | nil => rfl
  | cons b rest ih =>
    rw [List.filter_cons]
    cases b with
    | heading l t =>
      by_cases h56 : (l == 5 || l == 6) = true
      · have hdrop : (!isLevel56 (Block.heading l t)) = false := by
          simp [isLevel56, h56]
        rw [hdrop, if_neg (by simp)]
        have hl : l = 5 ∨ l = 6 := by simpa using h56
        have hstop : stopsAt lvl (Block.heading l t) = false := by
          rcases hl with rfl | rfl <;> simp [stopsAt]
        simp [collectTexts, hstop, blockText, ih]
      · have hkeep : (!isLevel56 (Block.heading l t)) = true := by
          simp [isLevel56]
          simpa using h56
        rw [hkeep, if_pos rfl]
        cases hs : stopsAt lvl (Block.heading l t) <;>
          simp [collectTexts, hs, blockText, ih]
    | para t =>
      rw [if_pos (show (!isLevel56 (Block.para t)) = true from rfl)]
      simp [collectTexts, stopsAt, blockText, ih]
    | ulist t =>
      rw [if_pos (show (!isLevel56 (Block.ulist t)) = true from rfl)]
      simp [collectTexts, stopsAt, blockText, ih]
    | olist t =>
      rw [if_pos (show (!isLevel56 (Block.olist t)) = true from rfl)]
      simp [collectTexts, stopsAt, blockText, ih]
    | dlist t =>
      rw [if_pos (show (!isLevel56 (Block.dlist t)) = true from rfl)]
      simp [collectTexts, stopsAt, blockText, ih]
    | other =>
      rw [if_pos (show (!isLevel56 Block.other) = true from rfl)]
      simp [collectTexts, stopsAt, blockText, ih]

/-- Removing every level-5/6 heading from the document does not change the
extracted sections. -/
theorem extract_filter56 :
    ∀ doc, extract_etymology_sections (doc.filter (fun b => !isLevel56 b)) =
      extract_etymology_sections doc := by
  intro doc
  induction doc with
  | nil => rfl
  | cons b doc ih =>
    rw [List.filter_cons]
    cases b with
    | heading l t =>
      by_cases h56 : (l == 5 || l == 6) = true
      · have hdrop : (!isLevel56 (Block.heading l t)) = false := by
          simp [isLevel56, h56]
        rw [hdrop, if_neg (by simp)]
        have hl : l = 5 ∨ l = 6 := by simpa using h56
        have htrig : ((l == 2 || l == 3 || l == 4) && containsEtymologyWB t) = false := by
          rcases hl with rfl | rfl <;> simp
        simp [extract_etymology_sections, htrig, ih]
      · have hkeep : (!isLevel56 (Block.heading l t)) = true := by
          simp [isLevel56]
          simpa using h56
        rw [hkeep, if_pos rfl]
        by_cases htrig : ((l == 2 || l == 3 || l == 4) && containsEtymologyWB t) = true
        · simp [extract_etymology_sections, htrig, collectTexts_filter56, ih]
        · simp [extract_etymology_sections, htrig, ih]
    | para t =>
      rw [if_pos (show (!isLevel56 (Block.para t)) = true from rfl)]
      simpa [extract_etymology_sections] using ih
    | ulist t =>
      rw [if_pos (show (!isLevel56 (Block.ulist t)) = true from rfl)]
      simpa [extract_etymology_sections] using ih
    | olist t =>
      rw [if_pos (show (!isLevel56 (Block.olist t)) = true from rfl)]
      simpa [extract_etymology_sections] using ih
    | dlist t =>
      rw [if_pos (show (!isLevel56 (Block.dlist t)) = true from rfl)]
      simpa [extract_etymology_sections] using ih
    | other =>
      rw [if_pos (show (!isLevel56 Block.other) = true from rfl)]
      simpa [extract_etymology_sections] using ih

/-! ## Lemmas about the CSV model -/

/-- Consuming a run of plain characters (no delimiter, quote, or newline)
just accumulates them into the current field. -/
theorem csvParse_plain :
    ∀ s : List Char, s.any needsQuoteChar = false →
      ∀ (acc : List Char) (fs : List (List Char)) (started : Bool) (rest : List Char),
        csvParse .normal acc fs started (s ++ rest) =
          csvParse .normal (s.reverse ++ acc) fs (started || !s.isEmpty) rest := by
  intro s
  induction s with
  | nil => intro _ acc fs started rest; simp
  | cons c s ih =>
    intro h acc fs started rest
    have hc : needsQuoteChar c = false ∧ s.any needsQuoteChar = false := by
      simpa [List.any_cons] using h
    have hc' : ¬c = ',' ∧ ¬c = '"' ∧ ¬c = '\r' ∧ ¬c = '\n' := by
      simpa [needsQuoteChar, and_assoc] using hc.1
    obtain ⟨h1, h2, h3, h4⟩ := hc'
    rw [List.cons_append, csvParse]
    simp only [if_neg h1, if_neg h3, if_neg h4, if_neg h2]
    rw [ih hc.2]
    simp [List.append_assoc]

/-- Consuming the escaped body of a quoted field up to its closing quote. -/
theorem csvParse_quotedField :
    ∀ (s acc : List Char) (fs : List (List Char)) (started : Bool) (rest : List Char),
      csvParse .quoted acc fs started (escapeChars s ++ '"' :: rest) =
        csvParse .afterQuote (s.reverse ++ acc) fs started rest := by
  intro s
  induction s with
  | nil =>
    intro acc fs started rest
    rw [show escapeChars [] = [] from rfl, List.nil_append, csvParse]
    simp
  | cons c s ih =>
    intro acc fs started rest
    by_cases hq : c = '"'
    · subst hq
      rw [show escapeChars ('"' :: s) = '"' :: '"' :: escapeChars s from by
            rw [escapeChars, if_pos rfl]]
      rw [List.cons_append, List.cons_append, csvParse]
      simp only [if_pos rfl, if_true]
      rw [csvParse]
      simp only [if_pos rfl, if_true]
      rw [ih]
      simp [List.append_assoc]
    · rw [show escapeChars (c :: s) = c :: escapeChars s from by
            rw [escapeChars, if_neg hq]]
      rw [List.cons_append, csvParse]
      simp only [if_neg hq]
      rw [ih]
      simp [List.append_assoc]

/-- A written field followed by a comma: the field is pushed and the machine
is back at a fresh field. -/
theorem csvField_comma (s : List Char) (fs : List (List Char)) (started : Bool)
    (rest : List Char) :
    csvParse .normal [] fs started (writeFieldChars s ++ ',' :: rest) =
      csvParse .normal [] (s :: fs) true rest := by
  rw [writeFieldChars]
  by_cases hq : s.any needsQuoteChar = true
  · rw [if_pos hq, List.cons_append, csvParse]
    simp only [if_neg (show ¬('"' = ',') by decide),
      if_neg (show ¬('"' = '\r') by decide), if_neg (show ¬('"' = '\n') by decide),
      if_pos rfl, List.isEmpty_nil, if_pos rfl]
    rw [List.append_assoc, List.singleton_append, csvParse_quotedField, csvParse]
    simp
  · rw [if_neg hq, csvParse_plain s (by simpa using hq)]
    rw [csvParse]
    simp

/-- A written field followed by the `\r\n` record terminator: the record is
emitted and the machine starts a new record.  (`started = true` holds for
every non-first field, which is where this lemma is used.) -/
theorem csvField_crlf (s : List Char) (fs : List (List Char)) (rest : List Char) :
    csvParse .normal [] fs true (writeFieldChars s ++ '\r' :: '\n' :: rest) =
      (fs.reverse ++ [s]) :: csvParse .normal [] [] false rest := by
  rw [writeFieldChars]
  by_cases hq : s.any needsQuoteChar = true
  · rw [if_pos hq, List.cons_append, csvParse]
    simp only [if_neg (show ¬('"' = ',') by decide),
      if_neg (show ¬('"' = '\r') by decide), if_neg (show ¬('"' = '\n') by decide),
      if_pos rfl, List.isEmpty_nil, if_pos rfl]
    rw [List.append_assoc, List.singleton_append, csvParse_quotedField, csvParse]
    simp only [if_neg (show ¬('\r' = '"') by decide),
      if_neg (show ¬('\r' = ',') by decide), if_pos rfl]
    rw [show csvParse .afterCR [] [] false ('\n' :: rest) =
          csvParse .normal [] [] false rest from by rw [csvParse]; simp]
    simp
  · rw [if_neg hq, csvParse_plain s (by simpa using hq)]
    rw [csvParse]
    simp only [if_neg (show ¬('\r' = ',') by decide), if_pos rfl, Bool.true_or,
      if_pos rfl]
    rw [show csvParse .afterCR [] [] false ('\n' :: rest) =
          csvParse .normal [] [] false rest from by rw [csvParse]; simp]
    simp

/-- Parsing one written row pops out exactly its three fields. -/
theorem csvRow (e : Entry) (more : List Char) :
    csvParse .normal [] [] false (writeRowChars e ++ more) =
      [e.word.toList, e.etymology.toList, e.notes.toList] ::
        csvParse .normal [] [] false more := by
  rw [writeRowChars]
  simp only [List.append_assoc, List.cons_append, List.nil_append]
  rw [csvField_comma, csvField_comma, csvField_crlf]
  rfl

theorem csvParse_flatten (D : List Entry) :
    csvParse .normal [] [] false ((D.map writeRowChars).flatten) =
      D.map (fun e => [e.word.toList, e.etymology.toList, e.notes.toList]) := by
  induction D with
  | nil => rfl
  | cons e D ih =>
    rw [List.map_cons, List.flatten_cons, csvRow, ih, List.map_cons]

/-- The parse of a saved database: the header record followed by one record
of three fields per entry. -/
theorem csvRecords_save (D : List Entry) :
    csvRecords (save_db_to_text D) =
      ["word", "etymology", "notes"] :: D.map (fun e => [e.word, e.etymology, e.notes]) := by
  rw [csvRecords, save_db_to_text]
  rw [show (String.mk (saveChars D)).toList = saveChars D from rfl]
  rw [saveChars, csvRow, csvParse_flatten, List.map_cons, List.map_map]
  rfl

theorem rowGet_std_word (w ety n : String) :
    rowGet ["word", "etymology", "notes"] [w, ety, n] "word" = some (some w) := rfl

theorem rowGet_std_ety (w ety n : String) :
    rowGet ["word", "etymology", "notes"] [w, ety, n] "etymology" = some (some ety) := rfl

theorem rowGet_std_notes (w ety n : String) :
    rowGet ["word", "etymology", "notes"] [w, ety, n] "notes" = some (some n) := rfl

theorem rowToEntry_std (w ety n : String) (hw : ¬w = "") :
    rowToEntry ["word", "etymology", "notes"] [w, ety, n] =
      some (.ok ⟨pyStrip w, pyStrip ety, pyStrip n⟩) := by
  rw [rowToEntry, rowGet_std_word, rowGet_std_ety, rowGet_std_notes]
  show (if w = "" then none
        else some (Except.ok (⟨pyStrip w, pyStrip ety, pyStrip n⟩ : Entry))) = _
  rw [if_neg hw]

theorem processRows_map (D : List Entry)
    (h : ∀ e ∈ D, e.word ≠ "" ∧ pyStrip e.word = e.word ∧
      pyStrip e.etymology = e.etymology ∧ pyStrip e.notes = e.notes) :
    processRows ["word", "etymology", "notes"]
      (D.map (fun e => [e.word, e.etymology, e.notes])) = .ok D := by
  induction D with
  | nil => rfl
  | cons e D ih =>
    obtain ⟨hw, hsw, hse, hsn⟩ := h e (List.mem_cons_self e D)
    rw [List.map_cons, processRows, rowToEntry_std _ _ _ hw,
      ih (fun e' he' => h e' (List.mem_cons_of_mem e he')), hsw, hse, hsn]

theorem filter_rows_id (D : List Entry) :
    (D.map (fun e => [e.word, e.etymology, e.notes])).filter (fun r => !r.isEmpty) =
      D.map (fun e => [e.word, e.etymology, e.notes]) := by
  rw [List.filter_eq_self]
  intro r hr
  obtain ⟨e, _, rfl⟩ := List.mem_map.mp hr
  rfl

/-! ## Unfolding lemmas for `resolve` -/

theorem resolve_found (rows : List Entry) (o : Oracle) (soup : String → List Block)
    (word : String) (b : Bool) (e : Entry)
    (hw : (clean_word word == "") = false)
    (hmap : localMap rows (lowerStr (clean_word word)) = some e)
    (hety : (e.etymology == "") = false) :
    resolve rows o soup word b = .foundLocal e := by
  rw [resolve]
  simp only [hw, Bool.false_eq_true, if_false, hmap, hety]

theorem resolve_miss (rows : List Entry) (o : Oracle) (soup : String → List Block)
    (word : String) (b : Bool)
    (hw : (clean_word word == "") = false)
    (hnf : notFoundLocally rows (lowerStr (clean_word word))) :
    resolve rows o soup word b = resolve_fallback o soup (clean_word word) b := by
  rw [resolve]
  simp only [hw, Bool.false_eq_true, if_false]
  cases hlm : localMap rows (lowerStr (clean_word word)) with
  | none => rfl
  | some row =>
    have hrow : row.etymology = "" := hnf row hlm
    simp [hrow]

theorem resolve_fallback_online (o : Oracle) (soup : String → List Block)
    (w : String) (hfetch : fetch_etymology_html o w = (none, none)) :
    resolve_fallback o soup w true = .remoteNotFound (findRoots w) := by
  rw [resolve_fallback, hfetch]
  rfl

/-! ## Claims -/

/-- C1 (counterexample): the claim fails as stated.  The entry
`⟨"x2", "some", ""⟩` is in the dataset with a non-empty etymology, but
normalisation strips the digit, so the lookup key is `"x"` and the resolver
falls through to the heuristic branch for both values of the online flag —
the result never carries the entry. -/
theorem C1_counterexample :
    (⟨"x2", "some", ""⟩ : Entry) ∈ ([⟨"x2", "some", ""⟩] : List Entry) ∧
    ¬((⟨"x2", "some", ""⟩ : Entry).etymology = "") ∧
    resolve [⟨"x2", "some", ""⟩] failingOracle noSoup "x2" false =
      .heuristicOnly [] ∧
    resolve [⟨"x2", "some", ""⟩] failingOracle noSoup "x2" true =
      .remoteNotFound [] ∧
    resolve [⟨"x2", "some", ""⟩] failingOracle noSoup "x2" false ≠
      .foundLocal ⟨"x2", "some", ""⟩ ∧
    resolve [⟨"x2", "some", ""⟩] failingOracle noSoup "x2" true ≠
      .foundLocal ⟨"x2", "some", ""⟩ := by
  decide

/-- C1 (amended): for every entry with non-empty etymology whose word is
preserved (up to case) by normalisation, has a non-empty normalised form, and
is the only entry under its case-insensitive key (in particular the last
duplicate, cf. C9), `resolve` returns `FoundLocal` with exactly that entry,
for either value of the online flag. -/
theorem C1_amended (rows : List Entry) (e : Entry)
    (hmem : e ∈ rows) (hety : e.etymology ≠ "")
    (hw : clean_word e.word ≠ "")
    (hkey : lowerStr (clean_word e.word) = lowerStr e.word)
    (huni : ∀ r ∈ rows, lowerStr r.word = lowerStr e.word → r = e)
    (b : Bool) (o : Oracle) (soup : String → List Block) :
    resolve rows o soup e.word b = .foundLocal e := by
  refine resolve_found rows o soup e.word b e (by simpa using hw) ?_ (by simpa using hety)
  rw [hkey]
  exact localMap_eq_some hmem rfl huni

/-- C1 (amended, witness): a dataset containing `prestigious`. -/
theorem C1_amended_witness :
    resolve [⟨"prestigious", "From French", ""⟩] failingOracle noSoup
        "prestigious" false =
      .foundLocal ⟨"prestigious", "From French", ""⟩ :=
  C1_amended [⟨"prestigious", "From French", ""⟩] ⟨"prestigious", "From French", ""⟩
    (by decide) (by decide) (by decide) (by decide) (by decide)
    false failingOracle noSoup

/-- C2 (confirmed): for a word with a non-empty normalised form that is
absent from the dataset (or present only with an empty etymology),
`resolve` with the online flag off returns `HeuristicOnly` with the
(possibly empty) match set, and its result is identical for every behaviour
of the network oracle and of the HTML parser — no network I/O can influence
it. -/
theorem C2_offline (rows : List Entry) (word : String)
    (hw : clean_word word ≠ "")
    (hnf : notFoundLocally rows (lowerStr (clean_word word))) :
    (∀ (o : Oracle) (soup : String → List Block),
       resolve rows o soup word false = .heuristicOnly (findRoots (clean_word word))) ∧
    (∀ (o₁ o₂ : Oracle) (s₁ s₂ : String → List Block),
       resolve rows o₁ s₁ word false = resolve rows o₂ s₂ word false) := by
  constructor
  · intro o soup
    rw [resolve_miss rows o soup word false (by simpa using hw) hnf]
    rfl
  · intro o₁ o₂ s₁ s₂
    rw [resolve_offline_eq, resolve_offline_eq]

/-- C2 (witness): the word `zzz` on the empty dataset, with a failing oracle
on one run and a successful one on the other. -/
theorem C2_offline_witness :
    resolve [] failingOracle noSoup "zzz" false =
      .heuristicOnly (findRoots (clean_word "zzz")) ∧
    resolve [] failingOracle noSoup "zzz" false =
      resolve [] ⟨fun _ => .ok (some "<p>x</p>"), fun _ => .ok ["zzz"]⟩
        noSoup "zzz" false := by
  have h := C2_offline [] "zzz" (by decide) (fun r hr => Option.noConfusion hr)
  exact ⟨h.1 failingOracle noSoup,
    h.2 failingOracle ⟨fun _ => .ok (some "<p>x</p>"), fun _ => .ok ["zzz"]⟩ noSoup noSoup⟩

/-- C3 (counterexample): the claim fails as stated.  `"re"` is a lexicon
pattern occurring (case-insensitively) inside `"pre"`, yet
`findRoots "pre" = ["pre"]` does not contain it: `finditer` yields
non-overlapping matches, so an occurrence overlapping an earlier match is
not detected. -/
theorem C3_counterexample :
    findRoots "pre" = ["pre"] ∧ "re" ∈ rootPatterns ∧
    lowerChars "re".toList <:+: lowerChars "pre".toList ∧
    "re" ∉ findRoots "pre" := by
  refine ⟨by decide, by decide, ⟨['p'], [], by decide⟩, by decide⟩

/-- C3 (amended): `findRoots` returns the lexicographically sorted,
duplicate-free list of the lower-cased patterns found by the left-to-right
non-overlapping scan (longest pattern first at each position); every
reported hit is the lowercasing of a lexicon pattern occurring
case-insensitively as a substring of the word — but occurrences overlapping
an earlier match may be missed. -/
theorem C3_amended (w : String) :
    List.Sorted (· ≤ ·) (findRoots w) ∧ (findRoots w).Nodup ∧
    ∀ x ∈ findRoots w, ∃ p ∈ rootPatterns, x = lowerStr p ∧
      lowerChars p.toList <:+: lowerChars w.toList := by
  refine ⟨List.sorted_insertionSort _ _, ?_, ?_⟩
  · exact (List.perm_insertionSort _ _).symm.nodup (List.nodup_dedup _)
  · intro x hx
    rw [findRoots, findRootsWith] at hx
    rw [List.mem_insertionSort, List.mem_dedup] at hx
    obtain ⟨p, hp, hxp, hinf⟩ := scanFuel_sound _ _ _ x hx
    refine ⟨p, ?_, hxp, hinf⟩
    rw [sortByLenDesc] at hp
    exact (List.mem_insertionSort byLenDesc).mp hp

/-- C3 (amended, witness): the hit `"pre"` in `"preview"` comes from the
lexicon and occurs inside the word. -/
theorem C3_amended_witness :
    ∃ p ∈ rootPatterns, "pre" = lowerStr p ∧
      lowerChars p.toList <:+: lowerChars "preview".toList :=
  (C3_amended "preview").2.2 "pre" (by decide)

/-- C4 (confirmed): longest-match precedence.  Whenever two lexicon patterns
both match (case-insensitively) at the same position, the alternation built
longest-first picks a match at least as long as the longer one — never the
shorter one; and with the real lexicon, `findRoots "script"` reports
`"script"`. -/
theorem C4_longest_match :
    (∀ (pats : List String) (cs : List Char) (p q : String),
       p ∈ pats → q ∈ pats → prefixCI p cs = true → prefixCI q cs = true →
       p.length < q.length →
       ∃ r, firstMatch (sortByLenDesc pats) cs = some r ∧
         q.length ≤ r.length ∧ r ≠ p) ∧
    "script" ∈ findRoots "script" := by
  constructor
  · intro pats cs p q hp hq _ hqci hlen
    have hsorted : List.Sorted byLenDesc (sortByLenDesc pats) :=
      List.sorted_insertionSort _ _
    have hqmem : q ∈ sortByLenDesc pats := by
      rw [sortByLenDesc, List.mem_insertionSort]; exact hq
    obtain ⟨r, hr, hle⟩ :=
      find?_sorted_len (fun p => prefixCI p cs) (sortByLenDesc pats) hsorted q hqmem hqci
    refine ⟨r, hr, hle, fun hrp => ?_⟩
    subst hrp
    omega
  · decide

/-- C4 (witness): with the constructed lexicon `["scr", "script"]`, both
patterns match at the start of `"script"`, and the matcher picks a hit of
full length, not `"scr"`. -/
theorem C4_longest_match_witness :
    ∃ r, firstMatch (sortByLenDesc ["scr", "script"]) "script".toList = some r ∧
      "script".length ≤ r.length ∧ r ≠ "scr" :=
  C4_longest_match.1 ["scr", "script"] "script".toList "scr" "script"
    (by decide) (by decide) (by decide) (by decide) (by decide)

/-- C5 (counterexample): the claim fails as stated.  Collection does not
stop at every heading of level at most the trigger's: an `h1` (level 1 ≤ 2)
among the siblings is ignored by the loop, which only breaks on
`h2`/`h3`/`h4`, so the paragraph after the `h1` is still collected. -/
theorem C5_counterexample :
    extract_etymology_sections
        [Block.heading 2 "Etymology", Block.para "A",
         Block.heading 1 "X", Block.para "B"] =
      [⟨"Etymology", "A\n\nB"⟩] ∧
    extract_etymology_sections
        [Block.heading 2 "Etymology", Block.para "A",
         Block.heading 1 "X", Block.para "B"] ≠
      [⟨"Etymology", "A"⟩] := by
  decide

/-- C5 (amended): the extractor returns, in document order, one section per
level-2..4 heading whose text matches `\bEtymology\b` case-insensitively and
that is followed by at least one paragraph/list/definition-list block before
the next *level-2..4* heading of level at most the trigger's (headings of
other levels neither stop nor contribute); the body is the blank-line-joined
text of those blocks, and a matching heading with no such block yields no
section.  Stated as equality with the position-by-position description
`specSections`, plus the claim's concrete example. -/
theorem C5_amended :
    (∀ doc : List Block, extract_etymology_sections doc = specSections doc) ∧
    extract_etymology_sections
        [Block.heading 2 "Etymology 1", Block.para "P1", Block.para "P2",
         Block.heading 2 "Pronunciation", Block.para "P3"] =
      [⟨"Etymology 1", "P1\n\nP2"⟩] :=
  ⟨extract_eq_specSections, by decide⟩

/-- C6 (confirmed): when every remote call fails — raises, or yields a falsy
document (missing page, malformed response) — `fetch_etymology_html`
returns the absent pair `(none, none)` instead of propagating the failure
(the `try/except` wrappers make it total), and the pipeline reports
`RemoteNotFound` carrying the heuristic match set. -/
theorem C6_failsoft (o : Oracle)
    (hfail : ∀ t, isTruthy (wiktionary_parse o t) = false) :
    (∀ w, fetch_etymology_html o w = (none, none)) ∧
    (∀ (rows : List Entry) (soup : String → List Block) (w : String),
       clean_word w ≠ "" → notFoundLocally rows (lowerStr (clean_word w)) →
       resolve rows o soup w true = .remoteNotFound (findRoots (clean_word w))) := by
  refine ⟨fetch_none hfail, fun rows soup w hw hnf => ?_⟩
  rw [resolve_miss rows o soup w true (by simpa using hw) hnf]
  exact resolve_fallback_online o soup (clean_word w) (fetch_none hfail _)

/-- C6 (witness): the always-raising oracle. -/
theorem C6_failsoft_witness :
    fetch_etymology_html failingOracle "etymology" = (none, none) ∧
    resolve [] failingOracle noSoup "etymology" true =
      .remoteNotFound (findRoots (clean_word "etymology")) :=
  ⟨(C6_failsoft failingOracle (fun _ => rfl)).1 "etymology",
   (C6_failsoft failingOracle (fun _ => rfl)).2 [] noSoup "etymology"
     (by decide) (fun r hr => Option.noConfusion hr)⟩

/-- C7 (confirmed): dataset round-trip.  For a well-formed dataset (each
record has a non-empty, already-stripped word and already-stripped
etymology/notes), loading the text produced by saving yields exactly the
dataset, and the saved text's first record is the header
`word,etymology,notes`. -/
theorem C7_roundtrip (D : List Entry)
    (h : ∀ e ∈ D, e.word ≠ "" ∧ pyStrip e.word = e.word ∧
      pyStrip e.etymology = e.etymology ∧ pyStrip e.notes = e.notes) :
    load_db_from_text (some (save_db_to_text D)) = .ok D ∧
    (csvRecords (save_db_to_text D)).head? = some ["word", "etymology", "notes"] := by
  constructor
  · rw [load_db_from_text, csvRecords_save]
    show processRows ["word", "etymology", "notes"]
      ((D.map (fun e => [e.word, e.etymology, e.notes])).filter (fun r => !r.isEmpty))
        = .ok D
    rw [filter_rows_id, processRows_map D h]
  · rw [csvRecords_save]
    rfl

/-- C7 (witness): a two-entry dataset exercising the quoting of commas,
quotes, and embedded line breaks. -/
theorem C7_roundtrip_witness :
    load_db_from_text (some (save_db_to_text
        [⟨"a", "b", ""⟩, ⟨"c,d", "e\"f", "g\r\nh"⟩])) =
      .ok [⟨"a", "b", ""⟩, ⟨"c,d", "e\"f", "g\r\nh"⟩] ∧
    (csvRecords (save_db_to_text [⟨"a", "b", ""⟩, ⟨"c,d", "e\"f", "g\r\nh"⟩])).head? =
      some ["word", "etymology", "notes"] :=
  C7_roundtrip [⟨"a", "b", ""⟩, ⟨"c,d", "e\"f", "g\r\nh"⟩] (by decide)

/-- C8 (counterexample): the claim fails as stated.  The loader checks the
`word` field for truthiness *before* stripping, so a whitespace-only word is
kept and stripped to the empty string: the returned entry violates the
invariant that `word` is non-empty after trimming. -/
theorem C8_counterexample :
    load_db_from_text (some "word,etymology,notes\r\n ,x,y\r\n") =
      .ok [⟨"", "x", "y"⟩] ∧
    (⟨"", "x", "y"⟩ : Entry).word = "" := by
  exact ⟨rfl, rfl⟩

/-- C8 (amended): the loader yields `[]` (not an error) on a missing source;
a row whose `word` field is missing, `None`, or empty is skipped; every kept
entry is built by stripping the row's `word`/`etymology`/`notes` values,
with the raw `word` value non-empty — but possibly empty *after* stripping,
so the claimed "word non-empty after trimming" invariant does not hold
(cf. the counterexample). -/
theorem C8_amended :
    load_db_from_text none = .ok [] ∧
    (∀ header row, (rowGet header row "word").join = none →
       rowToEntry header row = none) ∧
    (∀ header row, (rowGet header row "word").join = some "" →
       rowToEntry header row = none) ∧
    (∀ header row e, rowToEntry header row = some (.ok e) →
       ∃ w, (rowGet header row "word").join = some w ∧ w ≠ "" ∧
         ∃ ety nts, (rowGet header row "etymology").getD (some "") = some ety ∧
           (rowGet header row "notes").getD (some "") = some nts ∧
           e = ⟨pyStrip w, pyStrip ety, pyStrip nts⟩) := by
  refine ⟨rfl, ?_, ?_, ?_⟩
  · intro header row h
    rw [rowToEntry, h]
  · intro header row h
    rw [rowToEntry, h]
    simp
  · intro header row e h
    rw [rowToEntry] at h
    cases hj : (rowGet header row "word").join with
    | none => rw [hj] at h; exact absurd h (by simp)
    | some w =>
      rw [hj] at h
      by_cases hw : w = ""
      · subst hw
        exact absurd h (by simp)
      · have hwget : (rowGet header row "word").getD (some "") = some w := by
          rw [Option.join_eq_some.mp hj]
          rfl
        cases hety : (rowGet header row "etymology").getD (some "") with
        | none =>
          rw [hwget, hety] at h
          exact absurd h (by simp [hw])
        | some ety =>
          cases hnts : (rowGet header row "notes").getD (some "") with
          | none =>
            rw [hwget, hety, hnts] at h
            exact absurd h (by simp [hw])
          | some nts =>
            rw [hwget, hety, hnts] at h
            simp only [if_neg hw, Option.some.injEq, Except.ok.injEq] at h
            exact ⟨w, rfl, hw, ety, nts, rfl, rfl, h.symm⟩

/-- C8 (amended, witness): a row with too few fields has `word = None` and
is skipped. -/
theorem C8_amended_witness :
    rowToEntry ["word", "etymology", "notes"] [] = none :=
  C8_amended.2.1 ["word", "etymology", "notes"] [] (by decide)

/-- C9 (confirmed): when entries share a case-insensitive word key, the dict
comprehension makes the last one win: lookup returns the entry occurring
last in dataset order, and `FoundLocal` carries that entry's etymology and
notes. -/
theorem C9_last_wins (pre post : List Entry) (e : Entry)
    (hpost : ∀ r ∈ post, lowerStr r.word ≠ lowerStr e.word) :
    localMap (pre ++ e :: post) (lowerStr e.word) = some e ∧
    (e.etymology ≠ "" → clean_word e.word ≠ "" →
      lowerStr (clean_word e.word) = lowerStr e.word →
      ∀ (o : Oracle) (soup : String → List Block) (b : Bool),
        resolve (pre ++ e :: post) o soup e.word b = .foundLocal e) := by
  have hmap : localMap (pre ++ e :: post) (lowerStr e.word) = some e :=
    localMap_append rfl hpost
  refine ⟨hmap, fun hety hw hkey o soup b => ?_⟩
  refine resolve_found _ o soup e.word b e (by simpa using hw) ?_ (by simpa using hety)
  rw [hkey]
  exact hmap

/-- C9 (witness): two entries for `a`; the second one's etymology is
returned. -/
theorem C9_last_wins_witness :
    localMap ([⟨"a", "x", ""⟩] ++ (⟨"a", "y", ""⟩ : Entry) :: []) (lowerStr "a") =
      some ⟨"a", "y", ""⟩ ∧
    resolve ([⟨"a", "x", ""⟩] ++ (⟨"a", "y", ""⟩ : Entry) :: []) failingOracle noSoup
        "a" false =
      .foundLocal ⟨"a", "y", ""⟩ := by
  have h := C9_last_wins [⟨"a", "x", ""⟩] [] ⟨"a", "y", ""⟩
    (fun r hr => absurd hr (List.not_mem_nil r))
  exact ⟨h.1, h.2 (by decide) (by decide) (by decide) failingOracle noSoup false⟩

/-- C10 (confirmed): the extractor only considers heading levels 2..4.
Deleting every level-5/6 heading from a document leaves the extracted
sections unchanged, and a level-5/6 heading neither triggers a section, nor
stops the sibling collection, nor contributes text to it. -/
theorem C10_levels :
    (∀ doc : List Block,
       extract_etymology_sections (doc.filter (fun b => !isLevel56 b)) =
         extract_etymology_sections doc) ∧
    (∀ (l : Nat) (t : String) (rest : List Block), l = 5 ∨ l = 6 →
       extract_etymology_sections (Block.heading l t :: rest) =
         extract_etymology_sections rest ∧
       ∀ lvl, collectTexts lvl (Block.heading l t :: rest) = collectTexts lvl rest) := by
  refine ⟨extract_filter56, fun l t rest hl => ?_⟩
  have htrig : ((l == 2 || l == 3 || l == 4) && containsEtymologyWB t) = false := by
    rcases hl with rfl | rfl <;> simp
  have hstop : ∀ lvl, stopsAt lvl (Block.heading l t) = false := by
    intro lvl; rcases hl with rfl | rfl <;> simp [stopsAt]
  exact ⟨by simp [extract_etymology_sections, htrig],
    fun lvl => by simp [collectTexts, hstop lvl, blockText]⟩

/-- C10 (witness): a level-5 `Etymology` heading is invisible. -/
theorem C10_levels_witness :
    extract_etymology_sections [Block.heading 5 "Etymology", Block.para "A"] =
      extract_etymology_sections [Block.para "A"] ∧
    collectTexts 2 [Block.heading 5 "Etymology", Block.para "A"] =
      collectTexts 2 [Block.para "A"] :=
  ⟨(C10_levels.2 5 "Etymology" [Block.para "A"] (Or.inl rfl)).1,
   (C10_levels.2 5 "Etymology" [Block.para "A"] (Or.inl rfl)).2 2⟩

end SpellingRoots
